import Mathlib

/-!
Verification of the task-scheduling search repository (hill climbing and
iterative deepening).  The Python sources `hill_climbing.py` and
`iterative_deepening.py` are shallowly embedded below: tasks and configs
become structures over `Int` (Python integers are unbounded), the pure
helpers (`get_value`, `get_error`, `can_add_task`, `get_neighbors`,
`step_expand`, ...) become executable Lean functions that mirror the
loops of the source, and the two engines become recursive functions whose
termination is proved from the same arguments the design relies on
(strictly decreasing error, bounded pattern depth).  Console output is
modelled as the list of messages the engines print unconditionally
(hill climbing) or at the terminal step (iterative deepening); the
verbose-only trace lines are not part of the model except where a claim
depends on the verbosity guard, which is recorded in `idMessages`.
-/

namespace Sched

/-- Task record from both source files: a name, a value, a duration
(`length`) and a deadline (`due`).  Python's `__eq__` compares all four
fields, which is the derived structural equality. -/
structure Task where
  name : String
  value : Int
  length : Int
  due : Int
deriving DecidableEq, Repr

/-- Run configuration from both source files: target value, output mode
("verbose" or "compact") and the optional restart budget. -/
structure Config where
  target : Int
  mode : String
  restarts : Option Int
deriving DecidableEq, Repr

/-- Function `get_value` from both files: sum of the tasks' values. -/
def get_value (tasks : List Task) : Int :=
  (tasks.map Task.value).sum

/-- Total duration of a sequence (the value of `end_time` after the walk
in `can_add_task`). -/
def totalLength (tasks : List Task) : Int :=
  (tasks.map Task.length).sum

/-- Deadline feasibility of a whole sequence started at time `time`:
every task finishes by its own due date.  This is the predicate the spec
calls "no prefix overruns its task's deadline". -/
def feasibleFrom (time : Int) : List Task → Bool
  | [] => true
  | t :: rest => decide (time + t.length ≤ t.due) && feasibleFrom (time + t.length) rest

/-- Accumulated deadline overrun of a sequence started at time `time`:
the sum over the tasks of `max 0 (completion - due)`.  This is the
claim-side description of the `overrun` accumulator of `get_error`. -/
def overrunSpec (time : Int) : List Task → Int
  | [] => 0
  | t :: rest => max 0 (time + t.length - t.due) + overrunSpec (time + t.length) rest

/-- The overrun-accumulating walk of `get_error` (`hill_climbing.py`
lines 121-126): `time` and `overrun` are the two loop accumulators. -/
def errWalk (time overrun : Int) : List Task → Int
  | [] => overrun
  | task :: rest =>
      errWalk (time + task.length)
        (if time + task.length > task.due then overrun + (time + task.length - task.due)
         else overrun) rest

/-- Function `get_error` from `hill_climbing.py`: the overrun walk plus, when the
value falls short of the target, `abs (target - value)`. -/
def get_error (state : List Task) (config : Config) : Int :=
  let value := get_value state
  let overrun := errWalk 0 0 state
  if value < config.target then |config.target - value| + overrun else overrun

/-- Function `contains` from `iterative_deepening.py`: membership by name. -/
def contains (tasks : List Task) (task : Task) : Bool :=
  tasks.any (fun t => t.name == task.name)

/-- The early-returning walk of `can_add_task`: accumulate `end_time`
over the existing sequence, failing as soon as a task misses its own due
date, and finally test whether the candidate still fits. -/
def canAddWalk (task : Task) (endTime : Int) : List Task → Bool
  | [] => decide (endTime + task.length ≤ task.due)
  | t :: rest =>
      if endTime + t.length > t.due then false
      else canAddWalk task (endTime + t.length) rest

/-- Function `can_add_task`, textually identical in both source files. -/
def can_add_task (tasks : List Task) (task : Task) : Bool :=
  canAddWalk task 0 tasks

theorem errWalk_eq (l : List Task) : ∀ time overrun : Int,
    errWalk time overrun l = overrun + overrunSpec time l := by
  induction l with
  | nil => intro time overrun; simp [errWalk, overrunSpec]
  | cons t rest ih =>
      intro time overrun
      simp only [errWalk, overrunSpec, ih]
      by_cases h : time + t.length > t.due
      · rw [if_pos h, max_eq_right (by omega)]
        ring
      · rw [if_neg h, max_eq_left (by omega)]
        ring

theorem overrunSpec_nonneg (l : List Task) : ∀ time : Int, 0 ≤ overrunSpec time l := by
  induction l with
  | nil => intro time; simp [overrunSpec]
  | cons t rest ih =>
      intro time
      have := ih (time + t.length)
      simp only [overrunSpec]
      have : (0 : Int) ≤ max 0 (time + t.length - t.due) := le_max_left _ _
      omega

theorem overrunSpec_eq_zero_iff (l : List Task) :
    ∀ time : Int, (overrunSpec time l = 0 ↔ feasibleFrom time l = true) := by
  induction l with
  | nil => intro time; simp [overrunSpec, feasibleFrom]
  | cons t rest ih =>
      intro time
      have hrest := ih (time + t.length)
      have hnn := overrunSpec_nonneg rest (time + t.length)
      simp only [overrunSpec, feasibleFrom, Bool.and_eq_true, decide_eq_true_eq]
      constructor
      · intro h
        have hmax : (0 : Int) ≤ max 0 (time + t.length - t.due) := le_max_left _ _
        have h1 : max 0 (time + t.length - t.due) = 0 := by omega
        have h2 : overrunSpec (time + t.length) rest = 0 := by omega
        refine ⟨?_, hrest.mp h2⟩
        by_contra hc
        push_neg at hc
        rw [max_eq_right (by omega)] at h1
        omega
      · rintro ⟨h1, h2⟩
        rw [max_eq_left (by omega), hrest.mpr h2]
        ring

theorem get_error_eq (state : List Task) (config : Config) :
    get_error state config =
      if get_value state < config.target then
        |config.target - get_value state| + overrunSpec 0 state
      else overrunSpec 0 state := by
  simp only [get_error, errWalk_eq, zero_add]

theorem get_error_nonneg (state : List Task) (config : Config) :
    0 ≤ get_error state config := by
  rw [get_error_eq]
  have h := overrunSpec_nonneg state 0
  split
  · have : (0 : Int) ≤ |config.target - get_value state| := abs_nonneg _
    omega
  · omega

/-- C1: `get_error` equals accumulated overrun plus (when the value falls
short) the shortfall; it is non-negative; and it vanishes exactly when the
value meets the target and no prefix overruns its own deadline. -/
theorem get_error_characterization (S : List Task) (cfg : Config) :
    get_error S cfg
        = overrunSpec 0 S + (if get_value S < cfg.target then cfg.target - get_value S else 0)
    ∧ 0 ≤ get_error S cfg
    ∧ (get_error S cfg = 0 ↔ cfg.target ≤ get_value S ∧ feasibleFrom 0 S = true) := by
  have hov := overrunSpec_nonneg S 0
  have hiff := overrunSpec_eq_zero_iff S 0
  refine ⟨?_, get_error_nonneg S cfg, ?_⟩
  · rw [get_error_eq]
    by_cases h : get_value S < cfg.target
    · rw [if_pos h, if_pos h, abs_of_pos (by omega)]
      ring
    · rw [if_neg h, if_neg h]
      ring
  · rw [get_error_eq]
    constructor
    · intro h
      split at h
      · rename_i hlt
        exfalso
        have : (0 : Int) < |cfg.target - get_value S| := abs_pos.mpr (by omega)
        omega
      · rename_i hge
        exact ⟨by omega, hiff.mp (by omega)⟩
    · rintro ⟨h1, h2⟩
      rw [if_neg (by omega), hiff.mpr h2]

theorem canAddWalk_eq (task : Task) (l : List Task) : ∀ endTime : Int,
    canAddWalk task endTime l
      = (feasibleFrom endTime l && decide (endTime + totalLength l + task.length ≤ task.due)) := by
  induction l with
  | nil =>
      intro endTime
      simp [canAddWalk, feasibleFrom, totalLength]
  | cons t rest ih =>
      intro endTime
      simp only [canAddWalk, feasibleFrom, totalLength, List.map_cons, List.sum_cons]
      by_cases h : endTime + t.length > t.due
      · rw [if_pos h]
        have : decide (endTime + t.length ≤ t.due) = false := by
          simp; omega
        simp [this]
      · rw [if_neg h, ih (endTime + t.length)]
        have hd : decide (endTime + t.length ≤ t.due) = true := by
          simp; omega
        rw [hd, Bool.true_and]
        have harith : endTime + t.length + totalLength rest
            = endTime + (t.length + (List.map Task.length rest).sum) := by
          simp only [totalLength]
          ring
        rw [harith]

/-- C2: `can_add_task S t` succeeds iff the existing sequence `S` is
deadline-feasible and the candidate still fits within its own due date;
and an already-infeasible `S` rejects every candidate. -/
theorem can_add_task_characterization (S : List Task) (t : Task)
    (h : contains S t = false) :
    (can_add_task S t = true ↔ (feasibleFrom 0 S = true ∧ totalLength S + t.length ≤ t.due))
    ∧ (feasibleFrom 0 S = false → can_add_task S t = false) := by
  unfold can_add_task
  rw [canAddWalk_eq]
  constructor
  · simp
  · intro hbad
    simp [hbad]

/-- Witness for the feasibility characterization at the spec §8 example:
`S = [A]` (length 2, due 5) cannot be extended with `C` (length 4, due 5). -/
theorem can_add_task_characterization_witness :
    (contains [Task.mk "A" 3 2 5] (Task.mk "C" 1 4 5) = false)
    ∧ ((can_add_task [Task.mk "A" 3 2 5] (Task.mk "C" 1 4 5) = true
        ↔ (feasibleFrom 0 [Task.mk "A" 3 2 5] = true
            ∧ totalLength [Task.mk "A" 3 2 5] + (Task.mk "C" 1 4 5).length ≤ (Task.mk "C" 1 4 5).due))
      ∧ (feasibleFrom 0 [Task.mk "A" 3 2 5] = false
          → can_add_task [Task.mk "A" 3 2 5] (Task.mk "C" 1 4 5) = false)) :=
  ⟨by decide, can_add_task_characterization [Task.mk "A" 3 2 5] (Task.mk "C" 1 4 5) (by decide)⟩

/-- The name tuple used by `get_neighbors` to deduplicate candidates. -/
def namesKey (p : List Task) : List String :=
  p.map Task.name

/-- Exchange the elements at positions `i` and `i+1` (the in-place swap of
`get_neighbors` move B, expressed on immutable lists). -/
def swapAt (l : List α) (i : Nat) : List α :=
  l.take i ++ (match l.drop i with
    | x :: y :: rest => y :: x :: rest
    | other => other)

/-- Move A of `get_neighbors`: `state[:i] + state[i+1:]` for each `i`. -/
def deleteMoves (state : List Task) : List (List Task) :=
  (List.range state.length).map (fun i => state.take i ++ state.drop (i + 1))

/-- Move B of `get_neighbors`: adjacent swaps. -/
def swapMoves (state : List Task) : List (List Task) :=
  (List.range (state.length - 1)).map (fun i => swapAt state i)

/-- Move C of `get_neighbors`: append each task of the full set that is
not in the state (Python `t not in state`, full structural equality). -/
def appendMoves (state allTasks : List Task) : List (List Task) :=
  (allTasks.filter (fun t => !decide (t ∈ state))).map (fun t => state ++ [t])

/-- The raw candidate list, in the fixed source order A, B, C. -/
def neighborCandidates (state allTasks : List Task) : List (List Task) :=
  deleteMoves state ++ swapMoves state ++ appendMoves state allTasks

/-- The `add` closure of `get_neighbors`: skip a candidate equal to the
current state, skip a candidate whose name tuple was already seen, and
otherwise record both the candidate and its name tuple. -/
def addNeighbor (state : List Task) (acc : List (List Task) × List (List String))
    (cand : List Task) : List (List Task) × List (List String) :=
  if cand = state then acc
  else if namesKey cand ∈ acc.2 then acc
  else (acc.1 ++ [cand], acc.2 ++ [namesKey cand])

/-- Function `get_neighbors` from `hill_climbing.py`: deletes, adjacent swaps and
appends, deduplicated by name tuple and excluding the state itself. -/
def get_neighbors (state allTasks : List Task) : List (List Task) :=
  ((neighborCandidates state allTasks).foldl (addNeighbor state) ([], [])).1

theorem addNeighbor_fold_sublist (state : List Task) (cands : List (List Task)) :
    ∀ acc : List (List Task) × List (List String),
      ∃ s, (cands.foldl (addNeighbor state) acc).1 = acc.1 ++ s
        ∧ s.Sublist cands ∧ ∀ c ∈ s, c ≠ state := by
  induction cands with
  | nil => intro acc; exact ⟨[], by simp, List.Sublist.refl _, by simp⟩
  | cons c rest ih =>
      intro acc
      simp only [List.foldl_cons]
      unfold addNeighbor
      by_cases h1 : c = state
      · rw [if_pos h1]
        obtain ⟨s, hs, hsub, hne⟩ := ih acc
        exact ⟨s, hs, hsub.cons c, hne⟩
      · rw [if_neg h1]
        by_cases h2 : namesKey c ∈ acc.2
        · rw [if_pos h2]
          obtain ⟨s, hs, hsub, hne⟩ := ih acc
          exact ⟨s, hs, hsub.cons c, hne⟩
        · rw [if_neg h2]
          obtain ⟨s, hs, hsub, hne⟩ := ih (acc.1 ++ [c], acc.2 ++ [namesKey c])
          refine ⟨c :: s, by simpa using hs, hsub.cons₂ c, ?_⟩
          intro x hx
          rcases List.mem_cons.mp hx with rfl | hx
          · exact h1
          · exact hne x hx

theorem addNeighbor_fold_nodup (state : List Task) (cands : List (List Task)) :
    ∀ acc : List (List Task) × List (List String),
      acc.2 = acc.1.map namesKey → acc.2.Nodup →
      (cands.foldl (addNeighbor state) acc).2
          = (cands.foldl (addNeighbor state) acc).1.map namesKey
        ∧ (cands.foldl (addNeighbor state) acc).2.Nodup := by
  induction cands with
  | nil => intro acc h1 h2; exact ⟨h1, h2⟩
  | cons c rest ih =>
      intro acc h1 h2
      simp only [List.foldl_cons]
      unfold addNeighbor
      by_cases hc1 : c = state
      · rw [if_pos hc1]; exact ih acc h1 h2
      · rw [if_neg hc1]
        by_cases hc2 : namesKey c ∈ acc.2
        · rw [if_pos hc2]; exact ih acc h1 h2
        · rw [if_neg hc2]
          refine ih _ ?_ ?_
          · simp [h1]
          · rw [List.nodup_append]
            refine ⟨h2, List.nodup_singleton _, ?_⟩
            intro a ha hb
            rw [List.mem_singleton] at hb
            subst hb
            exact hc2 ha

theorem get_neighbors_sublist (state allTasks : List Task) :
    (get_neighbors state allTasks).Sublist (neighborCandidates state allTasks)
    ∧ ∀ c ∈ get_neighbors state allTasks, c ≠ state := by
  obtain ⟨s, hs, hsub, hne⟩ :=
    addNeighbor_fold_sublist state (neighborCandidates state allTasks) ([], [])
  unfold get_neighbors
  rw [hs]
  simpa using ⟨hsub, hne⟩

theorem get_neighbors_keys_nodup (state allTasks : List Task) :
    ((get_neighbors state allTasks).map namesKey).Nodup := by
  obtain ⟨h1, h2⟩ :=
    addNeighbor_fold_nodup state (neighborCandidates state allTasks) ([], []) (by simp) (by simp)
  unfold get_neighbors
  exact h1 ▸ h2

theorem swapAt_map (f : α → β) (l : List α) (i : Nat) :
    (swapAt l i).map f = swapAt (l.map f) i := by
  unfold swapAt
  rw [List.map_append, List.map_take]
  congr 1
  rw [← List.map_drop]
  cases hd : l.drop i with
  | nil => simp
  | cons x t =>
      cases t with
      | nil => simp
      | cons y r => simp

theorem cand_key_ne (state allTasks : List Task) (h : (state.map Task.name).Nodup) :
    ∀ c ∈ neighborCandidates state allTasks, namesKey c ≠ namesKey state := by
  intro c hc
  unfold neighborCandidates at hc
  rw [List.mem_append, List.mem_append] at hc
  rcases hc with (hc | hc) | hc
  · unfold deleteMoves at hc
    rw [List.mem_map] at hc
    obtain ⟨i, hi, rfl⟩ := hc
    rw [List.mem_range] at hi
    intro heq
    have hlen := congrArg List.length heq
    simp only [namesKey, List.length_map, List.length_append, List.length_take,
      List.length_drop] at hlen
    omega
  · unfold swapMoves at hc
    rw [List.mem_map] at hc
    obtain ⟨i, hi, rfl⟩ := hc
    rw [List.mem_range] at hi
    intro heq
    have heq2 : swapAt (state.map Task.name) i = state.map Task.name := by
      rw [← swapAt_map]
      exact heq
    have hilt : i + 1 < (state.map Task.name).length := by
      rw [List.length_map]; omega
    have hd1 : (state.map Task.name).drop i
        = (state.map Task.name)[i] :: (state.map Task.name).drop (i + 1) :=
      List.drop_eq_getElem_cons (by omega)
    have hd2 : (state.map Task.name).drop (i + 1)
        = (state.map Task.name)[i + 1] :: (state.map Task.name).drop (i + 2) :=
      List.drop_eq_getElem_cons (by omega)
    have hsw : swapAt (state.map Task.name) i
        = (state.map Task.name).take i
          ++ (state.map Task.name)[i + 1] :: (state.map Task.name)[i]
          :: (state.map Task.name).drop (i + 2) := by
      unfold swapAt
      rw [hd1, hd2]
    have hsplit : (state.map Task.name)
        = (state.map Task.name).take i
          ++ (state.map Task.name)[i] :: (state.map Task.name)[i + 1]
          :: (state.map Task.name).drop (i + 2) := by
      conv_lhs => rw [← List.take_append_drop i (state.map Task.name), hd1, hd2]
    rw [hsw] at heq2
    have hcons := List.append_cancel_left (heq2.trans hsplit)
    have hxy : (state.map Task.name)[i + 1] = (state.map Task.name)[i] := by
      injection hcons
    have := (h.getElem_inj_iff).mp hxy
    omega
  · unfold appendMoves at hc
    rw [List.mem_map] at hc
    obtain ⟨t, ht, rfl⟩ := hc
    intro heq
    have hlen := congrArg List.length heq
    simp only [namesKey, List.length_map, List.length_append, List.length_cons,
      List.length_nil] at hlen
    omega

/-- C5: the neighbor set is an order-preserving selection (sublist) of the
raw delete/swap/append candidate list, its name tuples are pairwise
distinct, no neighbor coincides with the current state (by name tuple or
structurally), and its size is bounded by `n + (n-1) + m`. -/
theorem get_neighbors_characterization (state allTasks : List Task)
    (h : (state.map Task.name).Nodup) :
    (get_neighbors state allTasks).Sublist (neighborCandidates state allTasks)
    ∧ ((get_neighbors state allTasks).map namesKey).Nodup
    ∧ (∀ c ∈ get_neighbors state allTasks, namesKey c ≠ namesKey state ∧ c ≠ state)
    ∧ (get_neighbors state allTasks).length
        ≤ state.length + (state.length - 1)
          + (allTasks.filter (fun t => !decide (t ∈ state))).length := by
  obtain ⟨hsub, hne⟩ := get_neighbors_sublist state allTasks
  refine ⟨hsub, get_neighbors_keys_nodup state allTasks, ?_, ?_⟩
  · intro c hc
    exact ⟨cand_key_ne state allTasks h c (hsub.subset hc), hne c hc⟩
  · have hlen := hsub.length_le
    have hcands : (neighborCandidates state allTasks).length
        = state.length + (state.length - 1)
          + (allTasks.filter (fun t => !decide (t ∈ state))).length := by
      simp [neighborCandidates, deleteMoves, swapMoves, appendMoves]
      omega
    omega

/-- Example state and task set from spec §8 (`S=[A,B]`, `T={A,B,C}`). -/
def exState : List Task :=
  [Task.mk "A" 3 2 5, Task.mk "B" 5 3 6]

/-- Full task set of the spec §8 neighbor example. -/
def exAll : List Task :=
  [Task.mk "A" 3 2 5, Task.mk "B" 5 3 6, Task.mk "C" 2 4 5]

/-- Witness for the neighbor characterization at the spec §8 example. -/
theorem get_neighbors_characterization_witness :
    (exState.map Task.name).Nodup
    ∧ ((get_neighbors exState exAll).Sublist (neighborCandidates exState exAll)
      ∧ ((get_neighbors exState exAll).map namesKey).Nodup
      ∧ (∀ c ∈ get_neighbors exState exAll, namesKey c ≠ namesKey exState ∧ c ≠ exState)
      ∧ (get_neighbors exState exAll).length
          ≤ exState.length + (exState.length - 1)
            + (exAll.filter (fun t => !decide (t ∈ exState))).length) :=
  ⟨by decide, get_neighbors_characterization exState exAll (by decide)⟩

/-- Python's `min(xs, key=f)`: the first element attaining the minimal
key (the running best is replaced only on a strictly smaller key). -/
def stableMinBy (f : α → Int) : List α → Option α
  | [] => none
  | x :: xs => some (xs.foldl (fun b y => if f y < f b then y else b) x)

/-- Space-separated name string used by the printed messages. -/
def namesStr (ts : List Task) : String :=
  String.intercalate " " (ts.map Task.name)

/-- The inner `while True` loop of `hill_climbing`: returns the final
state together with a flag recording whether the zero-error accept branch
fired (which is when `Found solution` is printed).  Termination is the
design's own argument: the loop only continues to a neighbor of strictly
smaller error, and error is a non-negative integer. -/
def climb (cfg : Config) (tasks state : List Task) : List Task × Bool :=
  match stableMinBy (fun n => get_error n cfg) (get_neighbors state tasks) with
  | none => (state, false)
  | some m =>
      if get_error m cfg = 0 then (m, true)
      else if get_error state cfg ≤ get_error m cfg then (state, false)
      else climb cfg tasks m
termination_by (get_error state cfg).toNat
decreasing_by
  rename_i h0 hge
  have h1 := get_error_nonneg m cfg
  rw [not_le] at hge
  omega

/-- The states at the head of each iteration of the inner loop (the
successive values of `state`; the accept branch's final assignment is a
terminal exit, not a loop iteration). -/
def climbTrace (cfg : Config) (tasks state : List Task) : List (List Task) :=
  match stableMinBy (fun n => get_error n cfg) (get_neighbors state tasks) with
  | none => [state]
  | some m =>
      if get_error m cfg = 0 then [state]
      else if get_error state cfg ≤ get_error m cfg then [state]
      else state :: climbTrace cfg tasks m
termination_by (get_error state cfg).toNat
decreasing_by
  rename_i h0 hge
  have h1 := get_error_nonneg m cfg
  rw [not_le] at hge
  omega

/-- Function `select_random_start_state`: pinned to `[tasks[3], tasks[4]]`; `none`
models Python's `IndexError` when the list is too short. -/
def select_random_start_state (tasks : List Task) : Option (List Task) :=
  match tasks[3]?, tasks[4]? with
  | some a, some b => some [a, b]
  | _, _ => none

/-- The messages a single trial prints unconditionally: exactly the
`Found solution` line when the accept branch fired. -/
def trialMsgs (cfg : Config) (tasks start : List Task) : List String :=
  if (climb cfg tasks start).2 then
    ["Found solution " ++ namesStr (climb cfg tasks start).1
      ++ " Value=" ++ toString (get_value (climb cfg tasks start).1)]
  else []

/-- The `while restarts < config.restarts` loop of `hill_climbing`,
counting down the remaining trials.  The trailing `No solution found` is
printed inside the loop body once the incremented counter reaches the
budget, i.e. exactly in the last iteration and only if that iteration did
not end with a zero-error state. -/
def hillGo (cfg : Config) (tasks : List Task) : Nat → Except String (List String)
  | 0 => Except.ok []
  | Nat.succ n =>
      match select_random_start_state tasks with
      | none => Except.error "IndexError: list index out of range"
      | some start =>
          if get_error (climb cfg tasks start).1 cfg = 0 then
            Except.ok (trialMsgs cfg tasks start)
          else if n = 0 then
            Except.ok (trialMsgs cfg tasks start ++ ["No solution found"])
          else
            Except.map (fun rest => trialMsgs cfg tasks start ++ rest) (hillGo cfg tasks n)

/-- Function `hill_climbing`: raises when `restarts` is absent, otherwise runs the
restart loop (`restarts.toNat` iterations, matching the while loop). -/
def hill_climbing (cfg : Config) (tasks : List Task) : Except String (List String) :=
  match cfg.restarts with
  | none => Except.error "ValueError: Random restarts must be provided to hill climbing"
  | some r => hillGo cfg tasks r.toNat

theorem climb_none (cfg : Config) (tasks s : List Task)
    (hm : stableMinBy (fun n => get_error n cfg) (get_neighbors s tasks) = none) :
    climb cfg tasks s = (s, false) := by
  rw [climb, hm]

theorem climb_some (cfg : Config) (tasks s m : List Task)
    (hm : stableMinBy (fun n => get_error n cfg) (get_neighbors s tasks) = some m) :
    climb cfg tasks s =
      if get_error m cfg = 0 then (m, true)
      else if get_error s cfg ≤ get_error m cfg then (s, false)
      else climb cfg tasks m := by
  rw [climb, hm]

theorem climbTrace_none (cfg : Config) (tasks s : List Task)
    (hm : stableMinBy (fun n => get_error n cfg) (get_neighbors s tasks) = none) :
    climbTrace cfg tasks s = [s] := by
  rw [climbTrace, hm]

theorem climbTrace_some (cfg : Config) (tasks s m : List Task)
    (hm : stableMinBy (fun n => get_error n cfg) (get_neighbors s tasks) = some m) :
    climbTrace cfg tasks s =
      if get_error m cfg = 0 then [s]
      else if get_error s cfg ≤ get_error m cfg then [s]
      else s :: climbTrace cfg tasks m := by
  rw [climbTrace, hm]

theorem climbTrace_head (cfg : Config) (tasks s : List Task) :
    (climbTrace cfg tasks s).head? = some s := by
  rw [climbTrace]
  split
  · rfl
  · split
    · rfl
    · split
      · rfl
      · rfl

/-- C8: along the states the inner loop iterates on, the error strictly
decreases; since the error is a non-negative integer, the number of
iterations is bounded by the start state's error, so every trial
terminates. -/
theorem hill_trial_termination (cfg : Config) (tasks s : List Task) :
    List.Chain' (fun a b => get_error b cfg < get_error a cfg) (climbTrace cfg tasks s)
    ∧ (climbTrace cfg tasks s).length ≤ (get_error s cfg).toNat + 1
    ∧ 0 ≤ get_error s cfg := by
  induction s using climbTrace.induct cfg tasks with
  | case1 s hm =>
      rw [climbTrace_none cfg tasks s hm]
      exact ⟨List.chain'_singleton s, by simp, get_error_nonneg s cfg⟩
  | case2 s m hm h0 =>
      rw [climbTrace_some cfg tasks s m hm, if_pos h0]
      exact ⟨List.chain'_singleton s, by simp, get_error_nonneg s cfg⟩
  | case3 s m hm h0 hge =>
      rw [climbTrace_some cfg tasks s m hm, if_neg h0, if_pos hge]
      exact ⟨List.chain'_singleton s, by simp, get_error_nonneg s cfg⟩
  | case4 s m hm h0 hge ih =>
      rw [climbTrace_some cfg tasks s m hm, if_neg h0, if_neg hge]
      rw [not_le] at hge
      obtain ⟨ihc, ihl, ihn⟩ := ih
      refine ⟨?_, ?_, get_error_nonneg s cfg⟩
      · rw [List.chain'_cons']
        refine ⟨?_, ihc⟩
        intro b hb
        rw [climbTrace_head] at hb
        rw [Option.mem_some_iff] at hb
        subst hb
        exact hge
      · simp only [List.length_cons]
        omega

theorem climb_accept_zero (cfg : Config) (tasks s : List Task) :
    (climb cfg tasks s).2 = true → get_error (climb cfg tasks s).1 cfg = 0 := by
  induction s using climb.induct cfg tasks with
  | case1 s hm =>
      rw [climb_none cfg tasks s hm]
      intro h
      simp at h
  | case2 s m hm h0 =>
      rw [climb_some cfg tasks s m hm, if_pos h0]
      intro _
      exact h0
  | case3 s m hm h0 hge =>
      rw [climb_some cfg tasks s m hm, if_neg h0, if_pos hge]
      intro h
      simp at h
  | case4 s m hm h0 hge ih =>
      rw [climb_some cfg tasks s m hm, if_neg h0, if_neg hge]
      exact ih

theorem hillGo_succ_some (cfg : Config) (tasks start : List Task) (n : Nat)
    (hs : select_random_start_state tasks = some start) :
    hillGo cfg tasks (n + 1) =
      if get_error (climb cfg tasks start).1 cfg = 0 then Except.ok (trialMsgs cfg tasks start)
      else if n = 0 then Except.ok (trialMsgs cfg tasks start ++ ["No solution found"])
      else Except.map (fun rest => trialMsgs cfg tasks start ++ rest) (hillGo cfg tasks n) := by
  rw [hillGo, hs]

theorem hillGo_succ_none (cfg : Config) (tasks : List Task) (n : Nat)
    (hs : select_random_start_state tasks = none) :
    hillGo cfg tasks (n + 1) = Except.error "IndexError: list index out of range" := by
  rw [hillGo, hs]

theorem hill_climbing_some (cfg : Config) (tasks : List Task) (r : Int)
    (hr : cfg.restarts = some r) :
    hill_climbing cfg tasks = hillGo cfg tasks r.toNat := by
  rw [hill_climbing, hr]

theorem hillGo_succ_zero (cfg : Config) (tasks start : List Task) (n : Nat)
    (hs : select_random_start_state tasks = some start)
    (h0 : get_error (climb cfg tasks start).1 cfg = 0) :
    hillGo cfg tasks (n + 1) = Except.ok (trialMsgs cfg tasks start) := by
  rw [hillGo_succ_some cfg tasks start n hs, if_pos h0]

theorem hillGo_succ_nonzero (cfg : Config) (tasks start : List Task)
    (hs : select_random_start_state tasks = some start)
    (h0 : get_error (climb cfg tasks start).1 cfg ≠ 0) :
    ∀ n : Nat, ∃ out, hillGo cfg tasks (n + 1) = Except.ok out
      ∧ out.getLast? = some "No solution found" := by
  intro n
  induction n with
  | zero =>
      refine ⟨trialMsgs cfg tasks start ++ ["No solution found"], ?_, ?_⟩
      · rw [hillGo_succ_some cfg tasks start 0 hs, if_neg h0, if_pos rfl]
      · rw [List.getLast?_append_of_ne_nil _ (by simp)]
        rfl
  | succ k ih =>
      obtain ⟨out, hout, hlast⟩ := ih
      refine ⟨trialMsgs cfg tasks start ++ out, ?_, ?_⟩
      · rw [hillGo_succ_some cfg tasks start (k + 1) hs, if_neg h0,
          if_neg (Nat.succ_ne_zero k), hout]
        rfl
      · have hne : out ≠ [] := by
          intro hnil
          rw [hnil] at hlast
          simp at hlast
        rw [List.getLast?_append_of_ne_nil _ hne]
        exact hlast

/-- C3 (amended): with at least one restart and a long-enough task list,
the whole engine is decided by the (deterministic) first trial: if the
trial ends at a zero-error state the engine stops at once with exactly the
trial's messages (the `Found solution` line when the accept branch fired,
nothing otherwise), skipping every remaining restart; acceptance implies
the final error is zero; and if the trial ends with non-zero error, every
trial fails the same way and the run ends with `No solution found`. -/
theorem hill_climbing_restart_policy (cfg : Config) (tasks start : List Task) (r : Int)
    (hr : cfg.restarts = some r) (h1 : 1 ≤ r)
    (hs : select_random_start_state tasks = some start) :
    (get_error (climb cfg tasks start).1 cfg = 0 →
      hill_climbing cfg tasks = Except.ok (trialMsgs cfg tasks start))
    ∧ ((climb cfg tasks start).2 = true →
      get_error (climb cfg tasks start).1 cfg = 0
      ∧ trialMsgs cfg tasks start
          = ["Found solution " ++ namesStr (climb cfg tasks start).1
              ++ " Value=" ++ toString (get_value (climb cfg tasks start).1)])
    ∧ (get_error (climb cfg tasks start).1 cfg ≠ 0 →
      ∃ out, hill_climbing cfg tasks = Except.ok out
        ∧ out.getLast? = some "No solution found") := by
  have hto : r.toNat = (r.toNat - 1) + 1 := by omega
  refine ⟨?_, ?_, ?_⟩
  · intro h0
    rw [hill_climbing_some cfg tasks r hr, hto]
    exact hillGo_succ_zero cfg tasks start _ hs h0
  · intro hacc
    refine ⟨climb_accept_zero cfg tasks start hacc, ?_⟩
    unfold trialMsgs
    rw [if_pos hacc]
  · intro h0
    rw [hill_climbing_some cfg tasks r hr, hto]
    exact hillGo_succ_nonzero cfg tasks start hs h0 _

/-- Five-task list used to exercise the engines concretely. -/
def fiveTasks : List Task :=
  [Task.mk "A" 4 2 9, Task.mk "B" 6 3 9, Task.mk "C" 5 1 1,
   Task.mk "D" 6 1 2, Task.mk "E" 7 2 4]

/-- Witness for the restart policy at a concrete five-task input. -/
theorem hill_climbing_restart_policy_witness :
    ((Config.mk 100 "compact" (some 1)).restarts = some 1
      ∧ (1 : Int) ≤ 1
      ∧ select_random_start_state fiveTasks = some [Task.mk "D" 6 1 2, Task.mk "E" 7 2 4])
    ∧ ((get_error (climb (Config.mk 100 "compact" (some 1)) fiveTasks
            [Task.mk "D" 6 1 2, Task.mk "E" 7 2 4]).1 (Config.mk 100 "compact" (some 1)) = 0 →
        hill_climbing (Config.mk 100 "compact" (some 1)) fiveTasks
          = Except.ok (trialMsgs (Config.mk 100 "compact" (some 1)) fiveTasks
              [Task.mk "D" 6 1 2, Task.mk "E" 7 2 4]))
      ∧ ((climb (Config.mk 100 "compact" (some 1)) fiveTasks
            [Task.mk "D" 6 1 2, Task.mk "E" 7 2 4]).2 = true →
        get_error (climb (Config.mk 100 "compact" (some 1)) fiveTasks
            [Task.mk "D" 6 1 2, Task.mk "E" 7 2 4]).1 (Config.mk 100 "compact" (some 1)) = 0
        ∧ trialMsgs (Config.mk 100 "compact" (some 1)) fiveTasks
              [Task.mk "D" 6 1 2, Task.mk "E" 7 2 4]
            = ["Found solution "
                ++ namesStr (climb (Config.mk 100 "compact" (some 1)) fiveTasks
                    [Task.mk "D" 6 1 2, Task.mk "E" 7 2 4]).1
                ++ " Value="
                ++ toString (get_value (climb (Config.mk 100 "compact" (some 1)) fiveTasks
                    [Task.mk "D" 6 1 2, Task.mk "E" 7 2 4]).1)])
      ∧ (get_error (climb (Config.mk 100 "compact" (some 1)) fiveTasks
            [Task.mk "D" 6 1 2, Task.mk "E" 7 2 4]).1 (Config.mk 100 "compact" (some 1)) ≠ 0 →
        ∃ out, hill_climbing (Config.mk 100 "compact" (some 1)) fiveTasks = Except.ok out
          ∧ out.getLast? = some "No solution found")) :=
  ⟨⟨rfl, by decide, by decide⟩,
    hill_climbing_restart_policy (Config.mk 100 "compact" (some 1)) fiveTasks
      [Task.mk "D" 6 1 2, Task.mk "E" 7 2 4] 1 rfl (by decide) (by decide)⟩

/-- C3 counterexample: with `restarts = 0` the while loop body never runs,
so the engine produces no output at all, in particular not the
`No solution found` report the claim promises for `restarts = 0`. -/
theorem hill_climbing_zero_restarts_counterexample :
    hill_climbing (Config.mk 5 "compact" (some 0)) [] = Except.ok []
    ∧ "No solution found" ∉ ([] : List String) :=
  ⟨rfl, by simp⟩

/-- C9: the start-state selector is pinned to `[tasks[3], tasks[4]]`;
with fewer than five tasks it raises an index error, and therefore so
does `hill_climbing` as soon as one trial runs. -/
theorem select_start_characterization (tasks : List Task) :
    (∀ h : 5 ≤ tasks.length,
      select_random_start_state tasks
        = some [tasks.get ⟨3, by omega⟩, tasks.get ⟨4, by omega⟩])
    ∧ (tasks.length < 5 → select_random_start_state tasks = none)
    ∧ (∀ (cfg : Config) (r : Int), cfg.restarts = some r → 1 ≤ r → tasks.length < 5 →
      hill_climbing cfg tasks = Except.error "IndexError: list index out of range") := by
  have hnone : tasks.length < 5 → select_random_start_state tasks = none := by
    intro hlt
    unfold select_random_start_state
    rw [List.getElem?_eq_none (show tasks.length ≤ 4 by omega)]
    cases h3 : tasks[3]? with
    | none => rfl
    | some a => rfl
  refine ⟨?_, hnone, ?_⟩
  · intro h
    unfold select_random_start_state
    rw [List.getElem?_eq_getElem (show 3 < tasks.length by omega),
      List.getElem?_eq_getElem (show 4 < tasks.length by omega)]
    rfl
  · intro cfg r hr h1 hlt
    rw [hill_climbing_some cfg tasks r hr]
    have hto : r.toNat = (r.toNat - 1) + 1 := by omega
    rw [hto]
    exact hillGo_succ_none cfg tasks _ (hnone hlt)

/-- Witness for the start-state selector: both the five-task success case
and the two-task index-error case. -/
theorem select_start_characterization_witness :
    (5 ≤ fiveTasks.length
      ∧ select_random_start_state fiveTasks
          = some [fiveTasks.get ⟨3, by decide⟩, fiveTasks.get ⟨4, by decide⟩])
    ∧ (exState.length < 5
      ∧ hill_climbing (Config.mk 100 "compact" (some 1)) exState
          = Except.error "IndexError: list index out of range") :=
  ⟨⟨by decide, (select_start_characterization fiveTasks).1 (by decide)⟩,
    ⟨by decide, (select_start_characterization exState).2.2
      (Config.mk 100 "compact" (some 1)) 1 rfl (by decide) (by decide)⟩⟩

/-- Result of the iterative-deepening engine: the reported solution
pattern, or the fixpoint "no solution" outcome. -/
inductive IDResult where
  | found : List Task → IDResult
  | noSolution : IDResult
deriving DecidableEq, Repr

/-- The seeding comprehension of `iterative_deepening` (line 118): one
singleton pattern per task whose length is within its own due date. -/
def seedPatterns (tasks : List Task) : List (List Task) :=
  tasks.foldl (fun acc task => if task.length ≤ task.due then acc ++ [[task]] else acc) []

/-- The extension comprehension of `step_expand` (lines 109-113): all
1-step extensions of `base` by tasks not yet present (by name) that pass
`can_add_task`. -/
def extensionsOf (tasks : List Task) (base : List Task) : List (List Task) :=
  (tasks.filter (fun t => !contains base t && can_add_task base t)).map (fun t => base ++ [t])

/-- Function `step_expand` from `iterative_deepening.py`: keep every base pattern
and, right after each base whose length equals `val`, insert its
extensions. -/
def step_expand (all_task_patterns : List (List Task)) (tasks : List Task) (val : Nat) :
    List (List Task) :=
  all_task_patterns.foldl
    (fun new_patterns base =>
      if base.length = val then new_patterns ++ [base] ++ extensionsOf tasks base
      else new_patterns ++ [base])
    []

/-- Claim-side description of one expansion round, following the spec
§4.5 wording: every pattern is kept in place, and exactly the patterns of
length `val` receive their extensions immediately after themselves. -/
def step_expand_spec (tasks : List Task) (val : Nat) : List (List Task) → List (List Task)
  | [] => []
  | base :: rest =>
      (base :: (if base.length = val then extensionsOf tasks base else []))
        ++ step_expand_spec tasks val rest

/-- Claim-side description of the seeding, following the spec §4.5
wording: one singleton per task whose length does not exceed its due. -/
def seedPatterns_spec (tasks : List Task) : List (List Task) :=
  (tasks.filter (fun t => decide (t.length ≤ t.due))).map (fun t => [t])

theorem step_expand_foldl (tasks : List Task) (val : Nat) :
    ∀ (pats : List (List Task)) (acc : List (List Task)),
      pats.foldl
        (fun new_patterns base =>
          if base.length = val then new_patterns ++ [base] ++ extensionsOf tasks base
          else new_patterns ++ [base]) acc
        = acc ++ step_expand_spec tasks val pats := by
  intro pats
  induction pats with
  | nil => intro acc; simp [step_expand_spec]
  | cons base rest ih =>
      intro acc
      simp only [List.foldl_cons, step_expand_spec]
      by_cases h : base.length = val
      · rw [if_pos h, if_pos h, ih]
        simp
      · rw [if_neg h, if_neg h, ih]
        simp

theorem step_expand_eq_spec (pats : List (List Task)) (tasks : List Task) (val : Nat) :
    step_expand pats tasks val = step_expand_spec tasks val pats := by
  unfold step_expand
  rw [step_expand_foldl]
  simp

theorem seedPatterns_eq_spec (tasks : List Task) :
    seedPatterns tasks = seedPatterns_spec tasks := by
  unfold seedPatterns seedPatterns_spec
  suffices h : ∀ acc : List (List Task),
      tasks.foldl (fun acc task => if task.length ≤ task.due then acc ++ [[task]] else acc) acc
        = acc ++ (tasks.filter (fun t => decide (t.length ≤ t.due))).map (fun t => [t]) by
    simpa using h []
  induction tasks with
  | nil => intro acc; simp
  | cons t rest ih =>
      intro acc
      simp only [List.foldl_cons, List.filter_cons]
      by_cases h : t.length ≤ t.due
      · rw [if_pos h]
        simp only [decide_eq_true h]
        rw [ih]
        simp
      · rw [if_neg h]
        simp only [decide_eq_false h]
        rw [ih]
        simp

/-- C6: the pattern list is seeded with one singleton per task fitting
its own deadline, and each round keeps every pattern while inserting,
immediately after each pattern of frontier length `val`, its feasible
1-step extensions — patterns of other lengths (extensions included, which
have length `val + 1`) are not extended. -/
theorem id_seed_expand_characterization (pats : List (List Task)) (tasks : List Task)
    (val : Nat) :
    step_expand pats tasks val = step_expand_spec tasks val pats
    ∧ seedPatterns tasks = seedPatterns_spec tasks :=
  ⟨step_expand_eq_spec pats tasks val, seedPatterns_eq_spec tasks⟩

theorem contains_eq_false_iff (p : List Task) (t : Task) :
    contains p t = false ↔ t.name ∉ p.map Task.name := by
  unfold contains
  rw [← Bool.not_eq_true, List.any_eq_true]
  constructor
  · intro h hmem
    rw [List.mem_map] at hmem
    obtain ⟨x, hx, hxe⟩ := hmem
    exact h ⟨x, hx, by simp [hxe]⟩
  · rintro h ⟨x, hx, hxe⟩
    rw [beq_iff_eq] at hxe
    exact h (List.mem_map.mpr ⟨x, hx, hxe⟩)

theorem feasibleFrom_append (l1 l2 : List Task) : ∀ time : Int,
    feasibleFrom time (l1 ++ l2)
      = (feasibleFrom time l1 && feasibleFrom (time + totalLength l1) l2) := by
  induction l1 with
  | nil =>
      intro time
      simp [feasibleFrom, totalLength]
  | cons t rest ih =>
      intro time
      simp only [List.cons_append, feasibleFrom, List.append_eq]
      rw [ih (time + t.length), Bool.and_assoc]
      have harith : time + t.length + totalLength rest
          = time + totalLength (t :: rest) := by
        simp only [totalLength, List.map_cons, List.sum_cons]
        ring
      rw [harith]

theorem can_add_task_parts (base : List Task) (t : Task)
    (h : can_add_task base t = true) :
    feasibleFrom 0 base = true ∧ totalLength base + t.length ≤ t.due := by
  unfold can_add_task at h
  rw [canAddWalk_eq] at h
  rw [Bool.and_eq_true, decide_eq_true_eq] at h
  exact ⟨h.1, by omega⟩

theorem feasible_extend (base : List Task) (t : Task)
    (h : can_add_task base t = true) :
    feasibleFrom 0 (base ++ [t]) = true := by
  obtain ⟨h1, h2⟩ := can_add_task_parts base t h
  rw [feasibleFrom_append, h1, Bool.true_and]
  simp only [feasibleFrom, Bool.and_true, decide_eq_true_eq]
  omega

theorem mem_step_expand_spec (tasks : List Task) (val : Nat) :
    ∀ (pats : List (List Task)) (p : List Task), p ∈ step_expand_spec tasks val pats →
      p ∈ pats
      ∨ ∃ base ∈ pats, base.length = val
          ∧ ∃ t ∈ tasks, contains base t = false ∧ can_add_task base t = true
            ∧ p = base ++ [t] := by
  intro pats
  induction pats with
  | nil => intro p hp; simp [step_expand_spec] at hp
  | cons base rest ih =>
      intro p hp
      simp only [step_expand_spec, List.mem_append, List.mem_cons] at hp
      rcases hp with (rfl | hext) | hrest
      · exact Or.inl (List.mem_cons_self _ _)
      · by_cases hval : base.length = val
        · rw [if_pos hval] at hext
          unfold extensionsOf at hext
          rw [List.mem_map] at hext
          obtain ⟨t, ht, rfl⟩ := hext
          rw [List.mem_filter] at ht
          obtain ⟨htt, hcond⟩ := ht
          rw [Bool.and_eq_true, Bool.not_eq_true'] at hcond
          exact Or.inr ⟨base, List.mem_cons_self _ _, hval, t, htt, hcond.1, hcond.2, rfl⟩
        · rw [if_neg hval] at hext
          simp at hext
      · rcases ih p hrest with hmem | ⟨b, hb, hrest2⟩
        · exact Or.inl (List.mem_cons_of_mem _ hmem)
        · exact Or.inr ⟨b, List.mem_cons_of_mem _ hb, hrest2⟩

theorem mem_step_expand (pats : List (List Task)) (tasks : List Task) (val : Nat)
    (p : List Task) (hp : p ∈ step_expand pats tasks val) :
    p ∈ pats
    ∨ ∃ base ∈ pats, base.length = val
        ∧ ∃ t ∈ tasks, contains base t = false ∧ can_add_task base t = true
          ∧ p = base ++ [t] := by
  rw [step_expand_eq_spec] at hp
  exact mem_step_expand_spec tasks val pats p hp

theorem grown_exists (pats : List (List Task)) (tasks : List Task) (val : Nat)
    (h : (step_expand pats tasks val).length ≠ pats.length) :
    ∃ base ∈ pats, base.length = val
      ∧ ∃ t ∈ tasks, contains base t = false ∧ can_add_task base t = true := by
  rw [step_expand_eq_spec] at h
  induction pats with
  | nil => simp [step_expand_spec] at h
  | cons base rest ih =>
      simp only [step_expand_spec, List.length_append, List.length_cons] at h
      by_cases hrec : (step_expand_spec tasks val rest).length = rest.length
      · rw [hrec] at h
        have hext : (if base.length = val then extensionsOf tasks base else []).length ≠ 0 := by
          intro hzero
          omega
        by_cases hval : base.length = val
        · rw [if_pos hval] at hext
          unfold extensionsOf at hext
          rw [List.length_map] at hext
          have hne : (tasks.filter (fun t => !contains base t && can_add_task base t)) ≠ [] := by
            intro hnil
            rw [hnil] at hext
            simp at hext
          obtain ⟨t, ht⟩ := List.exists_mem_of_ne_nil _ hne
          rw [List.mem_filter] at ht
          obtain ⟨htt, hcond⟩ := ht
          rw [Bool.and_eq_true, Bool.not_eq_true'] at hcond
          exact ⟨base, List.mem_cons_self _ _, hval, t, htt, hcond.1, hcond.2⟩
        · rw [if_neg hval] at hext
          simp at hext
      · obtain ⟨b, hb, hrest2⟩ := ih hrec
        exact ⟨b, List.mem_cons_of_mem _ hb, hrest2⟩

/-- Name-boundedness invariant of the pattern list, used for the depth
bound that terminates the engine: a pattern has pairwise distinct names,
all drawn from the task list's names. -/
def patInv (tasks : List Task) (p : List Task) : Prop :=
  (p.map Task.name).Nodup ∧ ∀ t ∈ p, t.name ∈ tasks.map Task.name

theorem seed_patInv (tasks : List Task) :
    ∀ p ∈ seedPatterns tasks, patInv tasks p := by
  intro p hp
  rw [seedPatterns_eq_spec] at hp
  unfold seedPatterns_spec at hp
  rw [List.mem_map] at hp
  obtain ⟨t, ht, rfl⟩ := hp
  rw [List.mem_filter] at ht
  refine ⟨by simp, ?_⟩
  intro x hx
  rw [List.mem_singleton] at hx
  subst hx
  exact List.mem_map.mpr ⟨x, ht.1, rfl⟩

theorem step_expand_patInv (pats : List (List Task)) (tasks : List Task) (val : Nat)
    (hinv : ∀ p ∈ pats, patInv tasks p) :
    ∀ p ∈ step_expand pats tasks val, patInv tasks p := by
  intro p hp
  rcases mem_step_expand pats tasks val p hp with hmem | ⟨base, hb, hlen, t, ht, hcf, hca, rfl⟩
  · exact hinv p hmem
  · obtain ⟨hnd, hsub⟩ := hinv base hb
    constructor
    · rw [List.map_append]
      rw [List.nodup_append]
      refine ⟨hnd, List.nodup_singleton _, ?_⟩
      intro a ha hb2
      rw [List.map_singleton, List.mem_singleton] at hb2
      subst hb2
      exact (contains_eq_false_iff base t).mp hcf ha
    · intro x hx
      rw [List.mem_append, List.mem_singleton] at hx
      rcases hx with hx | rfl
      · exact hsub x hx
      · exact List.mem_map.mpr ⟨x, ht, rfl⟩

theorem val_lt_of_grown (pats : List (List Task)) (tasks : List Task) (val : Nat)
    (hinv : ∀ p ∈ pats, patInv tasks p)
    (h : (step_expand pats tasks val).length ≠ pats.length) :
    val + 1 ≤ tasks.length := by
  obtain ⟨base, hb, hlen, t, ht, hcf, _⟩ := grown_exists pats tasks val h
  obtain ⟨hnd, hsub⟩ := hinv base hb
  have hnodup : (t.name :: base.map Task.name).Nodup := by
    rw [List.nodup_cons]
    exact ⟨(contains_eq_false_iff base t).mp hcf, hnd⟩
  have hsubset : (t.name :: base.map Task.name) ⊆ tasks.map Task.name := by
    intro a ha
    rcases List.mem_cons.mp ha with rfl | ha
    · exact List.mem_map.mpr ⟨t, ht, rfl⟩
    · rw [List.mem_map] at ha
      obtain ⟨x, hx, rfl⟩ := ha
      exact hsub x hx
  have hle := (List.subperm_of_subset hnodup hsubset).length_le
  rw [List.length_cons, List.length_map, List.length_map, hlen] at hle
  exact hle

/-- The `while True` loop of `iterative_deepening` (lines 124-148),
abstracted to its result: expand the frontier at depth `val`; if the list
did not grow, stop with no solution at the current depth; otherwise scan
the new list in order for the first pattern meeting the target (the `for`
loop with its `break`), incrementing the depth either way.  Termination:
a growing round proves some pattern of length `val` extends by a fresh
name, so `val + 1` can never exceed the number of tasks (`val_lt_of_grown`
via the `patInv` invariant carried as `hinv`). -/
def idLoop (cfg : Config) (tasks : List Task) (patterns : List (List Task)) (val : Nat)
    (hinv : ∀ p ∈ patterns, patInv tasks p) : IDResult × Nat :=
  if h : (step_expand patterns tasks val).length = patterns.length then
    (IDResult.noSolution, val)
  else
    match (step_expand patterns tasks val).find? (fun p => decide (cfg.target ≤ get_value p)) with
    | some p => (IDResult.found p, val + 1)
    | none =>
        idLoop cfg tasks (step_expand patterns tasks val) (val + 1)
          (step_expand_patInv patterns tasks val hinv)
termination_by tasks.length + 1 - val
decreasing_by
  have := val_lt_of_grown patterns tasks val hinv h
  omega

/-- Function `iterative_deepening`: seed the pattern list and run the loop from
depth 1, returning the outcome and the final depth counter. -/
def iterative_deepening (cfg : Config) (tasks : List Task) : IDResult × Nat :=
  idLoop cfg tasks (seedPatterns tasks) 1 (seed_patInv tasks)

/-- The terminal messages `iterative_deepening` prints: the
`Found solution` line is printed unconditionally (line 141), while the
`No solution found` line is guarded by verbose mode (lines 130-131). -/
def idMessages (cfg : Config) (res : IDResult) : List String :=
  match res with
  | IDResult.found p =>
      ["Found solution " ++ namesStr p ++ ". Value=" ++ toString (get_value p)]
  | IDResult.noSolution => if cfg.mode = "verbose" then ["No solution found"] else []

theorem idLoop_fixpoint (cfg : Config) (tasks : List Task) (patterns : List (List Task))
    (val : Nat) (hinv : ∀ p ∈ patterns, patInv tasks p)
    (h : (step_expand patterns tasks val).length = patterns.length) :
    idLoop cfg tasks patterns val hinv = (IDResult.noSolution, val) := by
  rw [idLoop, dif_pos h]

theorem idLoop_found (cfg : Config) (tasks : List Task) (patterns : List (List Task))
    (val : Nat) (hinv : ∀ p ∈ patterns, patInv tasks p) (q : List Task)
    (h : (step_expand patterns tasks val).length ≠ patterns.length)
    (hf : (step_expand patterns tasks val).find? (fun p => decide (cfg.target ≤ get_value p))
        = some q) :
    idLoop cfg tasks patterns val hinv = (IDResult.found q, val + 1) := by
  rw [idLoop, dif_neg h, hf]

theorem idLoop_continue (cfg : Config) (tasks : List Task) (patterns : List (List Task))
    (val : Nat) (hinv : ∀ p ∈ patterns, patInv tasks p)
    (h : (step_expand patterns tasks val).length ≠ patterns.length)
    (hf : (step_expand patterns tasks val).find? (fun p => decide (cfg.target ≤ get_value p))
        = none) :
    idLoop cfg tasks patterns val hinv
      = idLoop cfg tasks (step_expand patterns tasks val) (val + 1)
          (step_expand_patInv patterns tasks val hinv) := by
  rw [idLoop, dif_neg h, hf]

instance (tasks : List Task) (p : List Task) : Decidable (patInv tasks p) := by
  unfold patInv
  infer_instance

theorem find?_eq_some_split (p : α → Bool) :
    ∀ (l : List α) (q : α), l.find? p = some q →
      ∃ l1 l2, l = l1 ++ q :: l2 ∧ (∀ x ∈ l1, p x = false) ∧ p q = true := by
  intro l
  induction l with
  | nil => intro q hq; simp at hq
  | cons a rest ih =>
      intro q hq
      cases hpa : p a with
      | true =>
          rw [List.find?_cons_of_pos _ hpa, Option.some_inj] at hq
          subst hq
          exact ⟨[], rest, rfl, by simp, hpa⟩
      | false =>
          rw [List.find?_cons_of_neg _ (by simp [hpa])] at hq
          obtain ⟨l1, l2, rfl, hall, hqt⟩ := ih q hq
          refine ⟨a :: l1, l2, rfl, ?_, hqt⟩
          intro x hx
          rcases List.mem_cons.mp hx with rfl | hx
          · exact hpa
          · exact hall x hx

/-- C7: after a growing round, if some pattern of the expanded list meets
the target then the loop stops reporting the first such pattern in list
order (everything before it falls short) with the
`Found solution <names>. Value=<v>` message and the incremented depth;
if none meets the target, the loop proceeds to the next round on the
expanded list with the incremented depth. -/
theorem id_round_policy (cfg : Config) (tasks : List Task) (patterns : List (List Task))
    (val : Nat) (hinv : ∀ p ∈ patterns, patInv tasks p)
    (hgrow : (step_expand patterns tasks val).length ≠ patterns.length) :
    ((∃ p ∈ step_expand patterns tasks val, cfg.target ≤ get_value p) →
      ∃ q l1 l2, step_expand patterns tasks val = l1 ++ q :: l2
        ∧ (∀ x ∈ l1, get_value x < cfg.target)
        ∧ cfg.target ≤ get_value q
        ∧ idLoop cfg tasks patterns val hinv = (IDResult.found q, val + 1)
        ∧ idMessages cfg (IDResult.found q)
            = ["Found solution " ++ namesStr q ++ ". Value=" ++ toString (get_value q)])
    ∧ ((∀ p ∈ step_expand patterns tasks val, get_value p < cfg.target) →
      idLoop cfg tasks patterns val hinv
        = idLoop cfg tasks (step_expand patterns tasks val) (val + 1)
            (step_expand_patInv patterns tasks val hinv)) := by
  constructor
  · intro hex
    cases hf : (step_expand patterns tasks val).find?
        (fun p => decide (cfg.target ≤ get_value p)) with
    | none =>
        exfalso
        rw [List.find?_eq_none] at hf
        obtain ⟨p, hp, hgt⟩ := hex
        exact hf p hp (decide_eq_true hgt)
    | some q =>
        obtain ⟨l1, l2, heq, hall, hqt⟩ := find?_eq_some_split _ _ q hf
        refine ⟨q, l1, l2, heq, ?_, ?_, idLoop_found cfg tasks patterns val hinv q hgrow hf, rfl⟩
        · intro x hx
          have := hall x hx
          rw [decide_eq_false_iff_not, not_le] at this
          exact this
        · rw [decide_eq_true_eq] at hqt
          exact hqt
  · intro hall
    refine idLoop_continue cfg tasks patterns val hinv hgrow ?_
    rw [List.find?_eq_none]
    intro p hp hpt
    rw [decide_eq_true_eq] at hpt
    exact absurd hpt (not_le.mpr (hall p hp))

/-- Witness for the round policy at `tasks = [A, B]` (the spec §8
objective example) with target 8: the round at depth 1 grows the list and
`[A, B]` is the first pattern meeting the target. -/
theorem id_round_policy_witness :
    ((∀ p ∈ [[Task.mk "A" 3 2 5], [Task.mk "B" 5 3 6]],
        patInv [Task.mk "A" 3 2 5, Task.mk "B" 5 3 6] p)
      ∧ (step_expand [[Task.mk "A" 3 2 5], [Task.mk "B" 5 3 6]]
            [Task.mk "A" 3 2 5, Task.mk "B" 5 3 6] 1).length
          ≠ ([[Task.mk "A" 3 2 5], [Task.mk "B" 5 3 6]] : List (List Task)).length
      ∧ ∃ p ∈ step_expand [[Task.mk "A" 3 2 5], [Task.mk "B" 5 3 6]]
            [Task.mk "A" 3 2 5, Task.mk "B" 5 3 6] 1,
          (Config.mk 8 "compact" none).target ≤ get_value p)
    ∧ (∃ q l1 l2, step_expand [[Task.mk "A" 3 2 5], [Task.mk "B" 5 3 6]]
            [Task.mk "A" 3 2 5, Task.mk "B" 5 3 6] 1 = l1 ++ q :: l2
        ∧ (∀ x ∈ l1, get_value x < (Config.mk 8 "compact" none).target)
        ∧ (Config.mk 8 "compact" none).target ≤ get_value q
        ∧ idLoop (Config.mk 8 "compact" none) [Task.mk "A" 3 2 5, Task.mk "B" 5 3 6]
            [[Task.mk "A" 3 2 5], [Task.mk "B" 5 3 6]] 1 (by decide)
            = (IDResult.found q, 1 + 1)
        ∧ idMessages (Config.mk 8 "compact" none) (IDResult.found q)
            = ["Found solution " ++ namesStr q ++ ". Value=" ++ toString (get_value q)]) :=
  ⟨⟨by decide, by decide, by decide⟩,
    (id_round_policy (Config.mk 8 "compact" none) [Task.mk "A" 3 2 5, Task.mk "B" 5 3 6]
      [[Task.mk "A" 3 2 5], [Task.mk "B" 5 3 6]] 1 (by decide) (by decide)).1 (by decide)⟩

/-- C4 (amended): when an expansion round leaves the pattern list's
length unchanged the loop stops at once with the no-solution outcome and
an unchanged depth counter; the accompanying report is `No solution
found` in verbose mode and nothing in compact mode (the print at
`iterative_deepening.py` lines 130-131 is verbose-guarded). -/
theorem id_fixpoint_policy (cfg : Config) (tasks : List Task) (patterns : List (List Task))
    (val : Nat) (hinv : ∀ p ∈ patterns, patInv tasks p)
    (h : (step_expand patterns tasks val).length = patterns.length) :
    idLoop cfg tasks patterns val hinv = (IDResult.noSolution, val)
    ∧ idMessages cfg IDResult.noSolution
        = (if cfg.mode = "verbose" then ["No solution found"] else [])
    ∧ ((step_expand (seedPatterns tasks) tasks 1).length = (seedPatterns tasks).length →
      iterative_deepening cfg tasks = (IDResult.noSolution, 1)) := by
  refine ⟨idLoop_fixpoint cfg tasks patterns val hinv h, rfl, ?_⟩
  intro hseed
  unfold iterative_deepening
  exact idLoop_fixpoint cfg tasks (seedPatterns tasks) 1 (seed_patInv tasks) hseed

/-- Witness for the fixpoint policy: the empty task list reaches the
fixpoint immediately, in verbose mode the report is `No solution found`. -/
theorem id_fixpoint_policy_witness :
    ((∀ p ∈ ([] : List (List Task)), patInv [] p)
      ∧ (step_expand [] [] 1).length = ([] : List (List Task)).length)
    ∧ (idLoop (Config.mk 1 "verbose" none) [] [] 1 (by decide) = (IDResult.noSolution, 1)
      ∧ idMessages (Config.mk 1 "verbose" none) IDResult.noSolution
          = (if (Config.mk 1 "verbose" none).mode = "verbose" then ["No solution found"] else [])
      ∧ ((step_expand (seedPatterns []) [] 1).length = (seedPatterns []).length →
        iterative_deepening (Config.mk 1 "verbose" none) [] = (IDResult.noSolution, 1))) :=
  ⟨⟨by decide, by decide⟩,
    id_fixpoint_policy (Config.mk 1 "verbose" none) [] [] 1 (by decide) (by decide)⟩

/-- C4 counterexample: in compact mode the fixpoint round stops the
engine but prints nothing — the claim's `No solution found` report does
not happen in compact mode. -/
theorem id_compact_silent_counterexample :
    (iterative_deepening (Config.mk 1 "compact" none) []).1 = IDResult.noSolution
    ∧ idMessages (Config.mk 1 "compact" none)
        (iterative_deepening (Config.mk 1 "compact" none) []).1 = []
    ∧ "No solution found"
        ∉ idMessages (Config.mk 1 "compact" none)
            (iterative_deepening (Config.mk 1 "compact" none) []).1 := by
  have h : iterative_deepening (Config.mk 1 "compact" none) [] = (IDResult.noSolution, 1) := by
    unfold iterative_deepening
    exact idLoop_fixpoint (Config.mk 1 "compact" none) [] (seedPatterns []) 1
      (seed_patInv []) (by decide)
  refine ⟨by rw [h], by rw [h]; rfl, ?_⟩
  rw [h]
  simp [idMessages]

/-- C10's invariant of a pattern: pairwise distinct task names and full
deadline feasibility of every prefix. -/
def soundPattern (p : List Task) : Prop :=
  (p.map Task.name).Nodup ∧ feasibleFrom 0 p = true

instance (p : List Task) : Decidable (soundPattern p) := by
  unfold soundPattern
  infer_instance

/-- C10: the seeded patterns are name-distinct and feasible, and one
expansion round preserves this invariant, so it holds at every point of
the search by induction over rounds. -/
theorem id_pattern_invariant (tasks : List Task) (patterns : List (List Task)) (val : Nat)
    (hinv : ∀ p ∈ patterns, soundPattern p) :
    (∀ p ∈ seedPatterns tasks, soundPattern p)
    ∧ (∀ p ∈ step_expand patterns tasks val, soundPattern p) := by
  constructor
  · intro p hp
    rw [seedPatterns_eq_spec] at hp
    unfold seedPatterns_spec at hp
    rw [List.mem_map] at hp
    obtain ⟨t, ht, rfl⟩ := hp
    rw [List.mem_filter] at ht
    have hdue : t.length ≤ t.due := by
      have := ht.2
      rwa [decide_eq_true_eq] at this
    refine ⟨by simp, ?_⟩
    simp only [feasibleFrom, Bool.and_true, decide_eq_true_eq]
    omega
  · intro p hp
    rcases mem_step_expand patterns tasks val p hp with
      hmem | ⟨base, hb, hlen, t, ht, hcf, hca, rfl⟩
    · exact hinv p hmem
    · obtain ⟨hnd, hfeas⟩ := hinv base hb
      refine ⟨?_, feasible_extend base t hca⟩
      rw [List.map_append, List.nodup_append]
      refine ⟨hnd, List.nodup_singleton _, ?_⟩
      intro a ha hb2
      rw [List.map_singleton, List.mem_singleton] at hb2
      subst hb2
      exact (contains_eq_false_iff base t).mp hcf ha

/-- Witness for the pattern-list invariant at `tasks = [A, B]` and the
depth-1 round on the seeded list. -/
theorem id_pattern_invariant_witness :
    (∀ p ∈ [[Task.mk "A" 3 2 5], [Task.mk "B" 5 3 6]], soundPattern p)
    ∧ ((∀ p ∈ seedPatterns [Task.mk "A" 3 2 5, Task.mk "B" 5 3 6], soundPattern p)
      ∧ (∀ p ∈ step_expand [[Task.mk "A" 3 2 5], [Task.mk "B" 5 3 6]]
            [Task.mk "A" 3 2 5, Task.mk "B" 5 3 6] 1, soundPattern p)) :=
  ⟨by decide,
    id_pattern_invariant [Task.mk "A" 3 2 5, Task.mk "B" 5 3 6]
      [[Task.mk "A" 3 2 5], [Task.mk "B" 5 3 6]] 1 (by decide)⟩

end Sched
